import Mathlib

/-!
Shallow embedding of the FMO-Repeater header codec (src/fmo_header.py) and
echo service state machine (src/fmo_echo_service.py).

Bytes are modelled as `List Nat` with every element `< 256`; Python `str`
values are modelled as lists of Unicode code points (`List Nat`).
-/

namespace FMO

/-- `True` for a UTF-8 continuation byte `0x80..0xBF`. -/
def isContByte (b : Nat) : Bool := 0x80 ≤ b && b ≤ 0xBF

/-- CPython's UTF-8 encoding of one code point. `none` models
`UnicodeEncodeError` (surrogates `U+D800..U+DFFF` cannot be encoded;
Python strings never hold code points above `U+10FFFF`). -/
def encodeChar (c : Nat) : Option (List Nat) :=
  if c < 0x80 then some [c]
  else if c < 0x800 then some [0xC0 + c / 64, 0x80 + c % 64]
  else if c < 0x10000 then
    if 0xD800 ≤ c ∧ c ≤ 0xDFFF then none
    else some [0xE0 + c / 4096, 0x80 + (c / 64) % 64, 0x80 + c % 64]
  else if c < 0x110000 then
    some [0xF0 + c / 262144, 0x80 + (c / 4096) % 64, 0x80 + (c / 64) % 64, 0x80 + c % 64]
  else none

/-- `s.encode('utf-8')`: concatenation of the per-code-point encodings,
failing when any code point is unencodable. -/
def pyEncodeUtf8 : List Nat → Option (List Nat)
  | [] => some []
  | c :: cs =>
    match encodeChar c, pyEncodeUtf8 cs with
    | some e, some rest => some (e ++ rest)
    | _, _ => none

/-- Validity of the second byte after a three-byte lead, per CPython's
UTF-8 decoder (excludes overlong forms and surrogates). -/
def cont3ok (b b2 : Nat) : Bool :=
  if b = 0xE0 then 0xA0 ≤ b2 && b2 ≤ 0xBF
  else if b = 0xED then 0x80 ≤ b2 && b2 ≤ 0x9F
  else isContByte b2

/-- Validity of the second byte after a four-byte lead, per CPython's
UTF-8 decoder (excludes overlong forms and code points above U+10FFFF). -/
def cont4ok (b b2 : Nat) : Bool :=
  if b = 0xF0 then 0x90 ≤ b2 && b2 ≤ 0xBF
  else if b = 0xF4 then 0x80 ≤ b2 && b2 ≤ 0x8F
  else isContByte b2

/-- `bytes.decode('utf-8', errors='replace')`: CPython's UTF-8 decoder with
each maximal subpart of an ill-formed subsequence replaced by one `U+FFFD`.
Decoding resumes at the first byte that falsified the current sequence. -/
def utf8DecodeReplace : List Nat → List Nat
  | [] => []
  | b :: rest =>
    if b ≤ 0x7F then b :: utf8DecodeReplace rest
    else if b < 0xC2 then 0xFFFD :: utf8DecodeReplace rest
    else if b ≤ 0xDF then
      match rest with
      | [] => [0xFFFD]
      | b2 :: rest2 =>
        if isContByte b2 then
          ((b - 0xC0) * 64 + (b2 - 0x80)) :: utf8DecodeReplace rest2
        else 0xFFFD :: utf8DecodeReplace (b2 :: rest2)
    else if b ≤ 0xEF then
      match rest with
      | [] => [0xFFFD]
      | b2 :: rest2 =>
        if cont3ok b b2 then
          match rest2 with
          | [] => [0xFFFD]
          | b3 :: rest3 =>
            if isContByte b3 then
              ((b - 0xE0) * 4096 + (b2 - 0x80) * 64 + (b3 - 0x80)) :: utf8DecodeReplace rest3
            else 0xFFFD :: utf8DecodeReplace (b3 :: rest3)
        else 0xFFFD :: utf8DecodeReplace (b2 :: rest2)
    else if b ≤ 0xF4 then
      match rest with
      | [] => [0xFFFD]
      | b2 :: rest2 =>
        if cont4ok b b2 then
          match rest2 with
          | [] => [0xFFFD]
          | b3 :: rest3 =>
            if isContByte b3 then
              match rest3 with
              | [] => [0xFFFD]
              | b4 :: rest4 =>
                if isContByte b4 then
                  ((b - 0xF0) * 262144 + (b2 - 0x80) * 4096 + (b3 - 0x80) * 64 + (b4 - 0x80))
                    :: utf8DecodeReplace rest4
                else 0xFFFD :: utf8DecodeReplace (b4 :: rest4)
            else 0xFFFD :: utf8DecodeReplace (b3 :: rest3)
        else 0xFFFD :: utf8DecodeReplace (b2 :: rest2)
    else 0xFFFD :: utf8DecodeReplace rest

/-- `bytes.rstrip(b'\x00')`: remove all trailing zero bytes. -/
def rstripZeros (l : List Nat) : List Nat :=
  (l.reverse.dropWhile (· == 0)).reverse

/-- `bytes.ljust(n, b'\x00')`: pad on the right with zero bytes up to
length `n` (a longer input is returned unchanged). -/
def ljustZeros (l : List Nat) (n : Nat) : List Nat :=
  l ++ List.replicate (n - l.length) 0

/-- Little-endian value of a list of bytes
(`struct.unpack` field reading, least significant byte first). -/
def leValue : List Nat → Nat
  | [] => 0
  | b :: rest => b + 256 * leValue rest

/-- Little-endian bytes of an unsigned 16-bit value (`struct.pack "<H"`). -/
def le16 (n : Nat) : List Nat := [n % 256, n / 256]

/-- Little-endian bytes of an unsigned 32-bit value (`struct.pack "<I"`). -/
def le32 (n : Nat) : List Nat :=
  [n % 256, n / 256 % 256, n / 65536 % 256, n / 16777216]

/-- Decidable equality for `Except`, so concrete codec runs can be checked
by `decide`. -/
instance instDecEqExcept {ε α : Type} [DecidableEq ε] [DecidableEq α] :
    DecidableEq (Except ε α)
  | .error a, .error b =>
    if h : a = b then .isTrue (h ▸ rfl) else .isFalse (fun hc => h (Except.error.inj hc))
  | .error _, .ok _ => .isFalse (fun hc => Except.noConfusion hc)
  | .ok _, .error _ => .isFalse (fun hc => Except.noConfusion hc)
  | .ok a, .ok b =>
    if h : a = b then .isTrue (h ▸ rfl) else .isFalse (fun hc => h (Except.ok.inj hc))

/-- A Python attribute value as used by this codec: an `int` or a `str`. -/
inductive PyValue where
  | int (n : Nat) : PyValue
  | str (s : List Nat) : PyValue
deriving DecidableEq

/-- The Python exceptions raised by the codec paths under study. -/
inductive PyError where
  | valueError : PyError
  | attributeError : PyError
  | structError : PyError
  | unicodeEncodeError : PyError
  | typeError : PyError
deriving DecidableEq

/-- `FMORawHeader`: version (uint32), padding1 (uint16), uid (uint16),
padding2 (uint16), callsign (a Python `str`, here its code points).
`extras` holds instance attributes added later via `setattr` that are not
among the five fields (Python objects accept such attributes); `__init__`
creates none, so a freshly constructed or decoded header has `extras = []`. -/
structure FMORawHeader where
  version : Nat
  padding1 : Nat
  uid : Nat
  padding2 : Nat
  callsign : List Nat
  extras : List (String × PyValue) := []
deriving DecidableEq

/-- The header size constant: 4 + 2 + 2 + 2 + 12 = 22 bytes. -/
def HEADER_SIZE : Nat := 22

/-- `FMORawHeader.from_bytes`: raises `ValueError` when fewer than 22 bytes
are given; otherwise unpacks `"<IHHH12s"` little-endian and decodes the
callsign by stripping trailing zero bytes and UTF-8-decoding with
replacement. -/
def FMORawHeader.from_bytes (data : List Nat) : Except PyError FMORawHeader :=
  if data.length < HEADER_SIZE then .error .valueError
  else .ok
    { version := leValue (data.take 4)
      padding1 := leValue ((data.drop 4).take 2)
      uid := leValue ((data.drop 6).take 2)
      padding2 := leValue ((data.drop 8).take 2)
      callsign := utf8DecodeReplace (rstripZeros ((data.drop 10).take 12))
      extras := [] }

/-- `self.CALLSIGN_SIZE` as read inside `to_bytes`: an instance attribute
set via `setattr` shadows the class constant 12. A shadowing value that is
not an `int` would make the byte-slice in `to_bytes` raise `TypeError`. -/
def callsignSizeOf (h : FMORawHeader) : Except PyError Nat :=
  match h.extras.lookup "CALLSIGN_SIZE" with
  | some (.int n) => .ok n
  | some _ => .error .typeError
  | none => .ok 12

/-- `FMORawHeader.to_bytes`: UTF-8-encode the callsign (`UnicodeEncodeError`
on an unencodable code point), slice to `self.CALLSIGN_SIZE` bytes, pad with
zero bytes to that size, then `struct.pack "<IHHH12s"` — which checks the
integer fields against their widths (`struct.error` otherwise) and fits the
callsign field to exactly 12 bytes (truncating or zero-padding). -/
def FMORawHeader.to_bytes (h : FMORawHeader) : Except PyError (List Nat) :=
  match pyEncodeUtf8 h.callsign with
  | none => .error .unicodeEncodeError
  | some enc =>
    match callsignSizeOf h with
    | .error e => .error e
    | .ok size =>
      let callsignPadded := ljustZeros (enc.take size) size
      if h.version < 2 ^ 32 ∧ h.padding1 < 2 ^ 16 ∧ h.uid < 2 ^ 16 ∧ h.padding2 < 2 ^ 16 then
        .ok (le32 h.version ++ le16 h.padding1 ++ le16 h.uid ++ le16 h.padding2 ++
             ljustZeros (callsignPadded.take 12) 12)
      else .error .structError

/-- One keyword argument of `replace_header_in_stream`.  The five header
fields have dedicated constructors carrying a value of the field's Python
type; `other key val` models a keyword argument whose name is not one of
the five field names. -/
inductive FieldUpdate where
  | version (v : Nat) : FieldUpdate
  | padding1 (v : Nat) : FieldUpdate
  | uid (v : Nat) : FieldUpdate
  | padding2 (v : Nat) : FieldUpdate
  | callsign (s : List Nat) : FieldUpdate
  | other (key : String) (val : PyValue) : FieldUpdate
deriving DecidableEq

/-- The keyword name of an update. -/
def FieldUpdate.key : FieldUpdate → String
  | .version _ => "version"
  | .padding1 _ => "padding1"
  | .uid _ => "uid"
  | .padding2 _ => "padding2"
  | .callsign _ => "callsign"
  | .other k _ => k

/-- The five field names of `FMORawHeader` instances. -/
def fieldNames : List String := ["version", "padding1", "uid", "padding2", "callsign"]

/-- Names defined in the class body of `FMORawHeader` besides the instance
fields: size constants and methods.  (Attributes inherited from `object`,
such as dunder methods, also satisfy Python's `hasattr`; they are omitted
here as no claim exercises them.) -/
def classAttrNames : List String :=
  ["VERSION_SIZE", "UID_SIZE", "CALLSIGN_SIZE", "PADDING_SIZE_1", "PADDING_SIZE_2",
   "HEADER_SIZE", "from_bytes", "to_bytes", "__init__", "__repr__"]

/-- Python `hasattr(header, key)`: true for the five instance fields, the
class-body attributes, and any instance attribute added via `setattr`. -/
def hasattrFMO (h : FMORawHeader) (key : String) : Bool :=
  fieldNames.contains key || classAttrNames.contains key ||
    (h.extras.lookup key).isSome

/-- Store `val` under `key` in the extras association list (Python
`setattr` for a name that is not one of the five fields). -/
def setExtra (extras : List (String × PyValue)) (key : String) (val : PyValue) :
    List (String × PyValue) :=
  (key, val) :: extras.filter (fun p => p.1 ≠ key)

/-- One iteration of the update loop in `replace_header_in_stream`:
`hasattr` check, then `setattr`. -/
def applyUpdate (h : FMORawHeader) (u : FieldUpdate) : Except PyError FMORawHeader :=
  match u with
  | .version v => .ok { h with version := v }
  | .padding1 v => .ok { h with padding1 := v }
  | .uid v => .ok { h with uid := v }
  | .padding2 v => .ok { h with padding2 := v }
  | .callsign s => .ok { h with callsign := s }
  | .other key val =>
    if hasattrFMO h key then .ok { h with extras := setExtra h.extras key val }
    else .error .attributeError

/-- The update loop of `replace_header_in_stream`, stopping at the first
`AttributeError`. -/
def applyUpdates (h : FMORawHeader) : List FieldUpdate → Except PyError FMORawHeader
  | [] => .ok h
  | u :: us =>
    match applyUpdate h u with
    | .error e => .error e
    | .ok h2 => applyUpdates h2 us

/-- `replace_header_in_stream(stream, **updates)`: parse the header, apply
the updates (raising `AttributeError` on a keyword that is not an attribute),
re-serialize, and append the payload `stream[22:]` unchanged. -/
def replace_header_in_stream (stream : List Nat) (updates : List FieldUpdate) :
    Except PyError (List Nat) :=
  match FMORawHeader.from_bytes stream with
  | .error e => .error e
  | .ok header =>
    match applyUpdates header updates with
    | .error e => .error e
    | .ok header2 =>
      match header2.to_bytes with
      | .error e => .error e
      | .ok newHeader => .ok (newHeader ++ stream.drop HEADER_SIZE)

/-! ## Echo service (src/fmo_echo_service.py) -/

/-- The mutable state guarded by `buffer_lock`: the message buffer and the
time of the last accepted message (`None` until a message is accepted). -/
structure EchoState where
  messageBuffer : List (List Nat)
  lastMessageTime : Option Int
deriving DecidableEq

/-- The configuration values the echo paths read: `echo.uid`,
`echo.callsign_prefix` (as code points) and `echo.timeout`.
Time is modelled with integers. -/
structure EchoConfig where
  uid : Nat
  callsignPfx : List Nat
  timeout : Int

/-- `FMOEchoService._on_message`: the whole body sits in a
`try/except Exception` block, so a decode failure leaves the state
untouched and no exception propagates.  A packet whose decoded uid equals
the configured uid is dropped before any buffering; otherwise the payload
is appended and the timestamp set to now. -/
def onMessage (cfgUid : Nat) (now : Int) (payload : List Nat) (s : EchoState) : EchoState :=
  match FMORawHeader.from_bytes payload with
  | .error _ => s
  | .ok header =>
    if header.uid = cfgUid then s
    else { messageBuffer := s.messageBuffer ++ [payload], lastMessageTime := some now }

/-- The per-batch report of `_replay_messages`: the success and failure
counters, the per-message outcomes in arrival order, and the packets handed
to `publish` in order. -/
structure ReplayReport where
  succeeded : Nat
  failed : Nat
  outcomes : List Bool
  published : List (List Nat)
deriving DecidableEq

/-- One iteration of the `_replay_messages` loop, inside its
`try/except`: decode the header, build the new callsign by prepending the
prefix, rewrite the header with `uid` and `callsign` updates, publish.
`rcOk` is the transport outcome of the `publish` call (false also models a
raised publish exception, which is caught and counted the same).  Returns
whether the iteration counted as a success and the packet handed to
`publish`, if the loop got that far. -/
def replayOne (cfgUid : Nat) (pfx : List Nat) (rcOk : Bool) (msg : List Nat) :
    Bool × Option (List Nat) :=
  match FMORawHeader.from_bytes msg with
  | .error _ => (false, none)
  | .ok h =>
    match replace_header_in_stream msg [.uid cfgUid, .callsign (pfx ++ h.callsign)] with
    | .error _ => (false, none)
    | .ok m => (rcOk, some m)

/-- The `for i, msg_data in enumerate(self.message_buffer, 1)` loop of
`_replay_messages`; `i` is the 1-based index used to look up the publish
outcome. -/
def replayAux (cfgUid : Nat) (pfx : List Nat) (rcOk : Nat → Bool) :
    Nat → List (List Nat) → ReplayReport
  | _, [] => ⟨0, 0, [], []⟩
  | i, msg :: rest =>
    let step := replayOne cfgUid pfx (rcOk i) msg
    let r := replayAux cfgUid pfx rcOk (i + 1) rest
    ⟨(if step.1 then r.succeeded + 1 else r.succeeded),
     (if step.1 then r.failed else r.failed + 1),
     step.1 :: r.outcomes,
     step.2.toList ++ r.published⟩

/-- `FMOEchoService._replay_messages` over a snapshot of the buffer. -/
def replayMessages (cfgUid : Nat) (pfx : List Nat) (rcOk : Nat → Bool)
    (msgs : List (List Nat)) : ReplayReport :=
  replayAux cfgUid pfx rcOk 1 msgs

/-- `FMOEchoService._check_timeout`: return unchanged when no message was
ever accepted; when `now - last > timeout`, replay the buffer when it is
non-empty and in any case reset the buffer and the timestamp.  Returns the
new state and the replay report when a replay ran. -/
def checkTimeout (cfg : EchoConfig) (rcOk : Nat → Bool) (now : Int) (s : EchoState) :
    EchoState × Option ReplayReport :=
  match s.lastMessageTime with
  | none => (s, none)
  | some t =>
    if now - t > cfg.timeout then
      (⟨[], none⟩,
       if s.messageBuffer.isEmpty then none
       else some (replayMessages cfg.uid cfg.callsignPfx rcOk s.messageBuffer))
    else (s, none)

/-- The well-formedness facts every header produced by `from_bytes` or kept
by a field update over the five fields enjoys: no extra attributes, integer
fields within their packed widths, an encodable callsign. -/
def HeaderOk (h : FMORawHeader) : Prop :=
  h.extras = [] ∧ h.version < 2 ^ 32 ∧ h.padding1 < 2 ^ 16 ∧
    h.uid < 2 ^ 16 ∧ h.padding2 < 2 ^ 16 ∧ (pyEncodeUtf8 h.callsign).isSome

/-- An update drawn from the five header fields, carrying a value of the
field's wire type (the integer widths of `struct.pack`; a callsign that the
UTF-8 encoder accepts). -/
def FieldUpdate.fiveOk : FieldUpdate → Prop
  | .version v => v < 2 ^ 32
  | .padding1 v => v < 2 ^ 16
  | .uid v => v < 2 ^ 16
  | .padding2 v => v < 2 ^ 16
  | .callsign s => (pyEncodeUtf8 s).isSome
  | .other _ _ => False

/-- Attribute names known statically: the five instance fields and the
class-body attributes. -/
def hasattrName (key : String) : Bool :=
  fieldNames.contains key || classAttrNames.contains key

/-- Every key stored in `extras` is a statically known attribute name. -/
def ExtrasOk (h : FMORawHeader) : Prop :=
  ∀ k v, (k, v) ∈ h.extras → hasattrName k = true

/-- The packet of the spec's concrete scenario: a 22-byte header with
version 1, uid 441, callsign "BD8BOJ", followed by the payload
`0xDEADBEEF`. -/
def samplePacket : List Nat :=
  [1, 0, 0, 0, 0, 0, 0xB9, 0x01, 0, 0,
   66, 68, 56, 66, 79, 74, 0, 0, 0, 0, 0, 0,
   0xDE, 0xAD, 0xBE, 0xEF]

/-! ## Helper lemmas -/

theorem rstripZeros_append_replicate (l : List Nat) (n : Nat) :
    rstripZeros (l ++ List.replicate n 0) = rstripZeros l := by
  unfold rstripZeros
  rw [List.reverse_append, List.reverse_replicate]
  congr 1
  induction n with
  | zero => simp
  | succ k ih =>
    rw [List.replicate_succ, List.cons_append, List.dropWhile_cons, if_pos (by decide)]
    exact ih

theorem rstripZeros_eq_self (l : List Nat) (h : l.getLast? ≠ some 0) :
    rstripZeros l = l := by
  unfold rstripZeros
  rcases hrev : l.reverse with _ | ⟨b, t⟩
  · have hl : l = [] := by simpa using congrArg List.reverse hrev
    simp [hl]
  · have hb : l.getLast? = some b := by
      rw [← List.head?_reverse, hrev]
      rfl
    have hbz : ¬(b == 0) = true := by
      simp only [beq_iff_eq]
      intro hc; exact h (hc ▸ hb)
    rw [List.dropWhile_cons, if_neg hbz, ← hrev, List.reverse_reverse]

theorem dropWhile_zero_append (u : List Nat) (p : Nat → Bool) :
    ∃ v, v ++ u.dropWhile p = u := by
  induction u with
  | nil => exact ⟨[], rfl⟩
  | cons b t ih =>
    rw [List.dropWhile_cons]
    by_cases hb : p b = true
    · obtain ⟨v, hv⟩ := ih
      exact ⟨b :: v, by simp [hb, hv]⟩
    · exact ⟨[], by simp [hb]⟩

theorem rstripZeros_append_eq (l : List Nat) : ∃ t, rstripZeros l ++ t = l := by
  obtain ⟨v, hv⟩ := dropWhile_zero_append l.reverse (· == 0)
  refine ⟨v.reverse, ?_⟩
  have := congrArg List.reverse hv
  simpa [rstripZeros, List.reverse_append] using this

theorem rstripZeros_length_le (l : List Nat) : (rstripZeros l).length ≤ l.length := by
  obtain ⟨t, ht⟩ := rstripZeros_append_eq l
  have := congrArg List.length ht
  simp only [List.length_append] at this
  omega

theorem ljustZeros_length (l : List Nat) (n : Nat) :
    (ljustZeros l n).length = max l.length n := by
  simp only [ljustZeros, List.length_append, List.length_replicate]
  omega

theorem leValue_lt (l : List Nat) (h : ∀ b ∈ l, b < 256) :
    leValue l < 256 ^ l.length := by
  induction l with
  | nil => simp [leValue]
  | cons b t ih =>
    have hb : b < 256 := h b (List.mem_cons_self b t)
    have ht := ih (fun x hx => h x (List.mem_cons_of_mem b hx))
    simp only [leValue, List.length_cons, pow_succ]
    calc b + 256 * leValue t ≤ 255 + 256 * leValue t := by omega
    _ < 256 * (leValue t + 1) := by omega
    _ ≤ 256 * 256 ^ t.length := by
        have : leValue t + 1 ≤ 256 ^ t.length := ht
        exact Nat.mul_le_mul_left 256 this
    _ = 256 ^ t.length * 256 := by ring

theorem leValue_le16 (n : Nat) : leValue (le16 n) = n := by
  simp only [le16, leValue]
  omega

theorem leValue_le32 (n : Nat) : leValue (le32 n) = n := by
  simp only [le32, leValue]
  omega

/-! ## UTF-8 decoder unfolding lemmas -/

theorem utf8DecodeReplace_one (b : Nat) (t : List Nat) (h : b ≤ 0x7F) :
    utf8DecodeReplace (b :: t) = b :: utf8DecodeReplace t := by
  rw [utf8DecodeReplace.eq_def]
  simp [h]

theorem utf8DecodeReplace_two (b b2 : Nat) (t : List Nat)
    (h1 : 0xC2 ≤ b) (h2 : b ≤ 0xDF) (hc : isContByte b2 = true) :
    utf8DecodeReplace (b :: b2 :: t) =
      ((b - 0xC0) * 64 + (b2 - 0x80)) :: utf8DecodeReplace t := by
  rw [utf8DecodeReplace.eq_def]
  have e1 : ¬ b ≤ 0x7F := by omega
  have e2 : ¬ b < 0xC2 := by omega
  simp [e1, e2, h2, hc]

theorem utf8DecodeReplace_three (b b2 b3 : Nat) (t : List Nat)
    (h1 : 0xE0 ≤ b) (h2 : b ≤ 0xEF) (hc2 : cont3ok b b2 = true)
    (hc3 : isContByte b3 = true) :
    utf8DecodeReplace (b :: b2 :: b3 :: t) =
      ((b - 0xE0) * 4096 + (b2 - 0x80) * 64 + (b3 - 0x80)) :: utf8DecodeReplace t := by
  rw [utf8DecodeReplace.eq_def]
  have e1 : ¬ b ≤ 0x7F := by omega
  have e2 : ¬ b < 0xC2 := by omega
  have e3 : ¬ b ≤ 0xDF := by omega
  simp [e1, e2, e3, h2, hc2, hc3]

theorem utf8DecodeReplace_four (b b2 b3 b4 : Nat) (t : List Nat)
    (h1 : 0xF0 ≤ b) (h2 : b ≤ 0xF4) (hc2 : cont4ok b b2 = true)
    (hc3 : isContByte b3 = true) (hc4 : isContByte b4 = true) :
    utf8DecodeReplace (b :: b2 :: b3 :: b4 :: t) =
      ((b - 0xF0) * 262144 + (b2 - 0x80) * 4096 + (b3 - 0x80) * 64 + (b4 - 0x80))
        :: utf8DecodeReplace t := by
  rw [utf8DecodeReplace.eq_def]
  have e1 : ¬ b ≤ 0x7F := by omega
  have e2 : ¬ b < 0xC2 := by omega
  have e3 : ¬ b ≤ 0xDF := by omega
  have e4 : ¬ b ≤ 0xEF := by omega
  simp [e1, e2, e3, e4, h2, hc2, hc3, hc4]

set_option maxRecDepth 8000

/-- Decoding the encoding of one code point consumes exactly that encoding
and yields the code point back. -/
theorem utf8DecodeReplace_encodeChar (c : Nat) (bs t : List Nat)
    (h : encodeChar c = some bs) :
    utf8DecodeReplace (bs ++ t) = c :: utf8DecodeReplace t := by
  unfold encodeChar at h
  split_ifs at h with h1 h2 h3 h4 h5
  · obtain rfl : bs = [c] := by injection h with h; exact h.symm
    exact utf8DecodeReplace_one c t (by omega)
  · obtain rfl : bs = [0xC0 + c / 64, 0x80 + c % 64] := by injection h with h; exact h.symm
    rw [List.cons_append, List.cons_append, List.nil_append,
      utf8DecodeReplace_two _ _ _ (by omega) (by omega)
        (by simp [isContByte]; omega)]
    congr 1
    omega
  · obtain rfl : bs = [0xE0 + c / 4096, 0x80 + c / 64 % 64, 0x80 + c % 64] := by
      injection h with h; exact h.symm
    rw [List.cons_append, List.cons_append, List.cons_append, List.nil_append,
      utf8DecodeReplace_three _ _ _ _ (by omega) (by omega) ?_
        (by simp [isContByte]; omega)]
    · congr 1
      omega
    · unfold cont3ok
      split_ifs with he hd
      · have : c / 4096 = 0 := by omega
        simp [isContByte]
        omega
      · have : c / 4096 = 13 := by omega
        have hns : ¬(0xD800 ≤ c ∧ c ≤ 0xDFFF) := h4
        simp [isContByte]
        omega
      · simp [isContByte]
        omega
  · obtain rfl :
        bs = [0xF0 + c / 262144, 0x80 + c / 4096 % 64, 0x80 + c / 64 % 64, 0x80 + c % 64] := by
      injection h with h; exact h.symm
    rw [List.cons_append, List.cons_append, List.cons_append, List.cons_append,
      List.nil_append,
      utf8DecodeReplace_four _ _ _ _ _ (by omega) (by omega) ?_
        (by simp [isContByte]; omega) (by simp [isContByte]; omega)]
    · congr 1
      omega
    · unfold cont4ok
      split_ifs with he hd
      · have : c / 262144 = 0 := by omega
        simp [isContByte]
        omega
      · have : c / 262144 = 4 := by omega
        simp [isContByte]
        omega
      · simp [isContByte]
        omega

/-- Decoding a valid UTF-8 encoding followed by arbitrary bytes decodes the
encoded text first. -/
theorem utf8DecodeReplace_pyEncode (s : List Nat) (bs t : List Nat)
    (h : pyEncodeUtf8 s = some bs) :
    utf8DecodeReplace (bs ++ t) = s ++ utf8DecodeReplace t := by
  induction s generalizing bs with
  | nil =>
    obtain rfl : bs = [] := by simpa [pyEncodeUtf8] using h.symm
    rfl
  | cons c cs ih =>
    unfold pyEncodeUtf8 at h
    rcases he : encodeChar c with _ | e <;> rw [he] at h
    · exact absurd h (by simp)
    rcases hr : pyEncodeUtf8 cs with _ | rest <;> rw [hr] at h
    · exact absurd h (by simp)
    obtain rfl : bs = e ++ rest := by injection h with h; exact h.symm
    rw [List.append_assoc, utf8DecodeReplace_encodeChar c e _ he, ih rest hr,
      List.cons_append]

/-- Decoding a valid UTF-8 encoding gives back the encoded code points. -/
theorem utf8DecodeReplace_pyEncode_eq (s bs : List Nat)
    (h : pyEncodeUtf8 s = some bs) : utf8DecodeReplace bs = s := by
  have := utf8DecodeReplace_pyEncode s bs [] h
  simpa [utf8DecodeReplace] using this

/-- `encodeChar` succeeds exactly on Unicode scalar values. -/
theorem encodeChar_isSome_iff (c : Nat) :
    (encodeChar c).isSome ↔ (c < 0x110000 ∧ ¬(0xD800 ≤ c ∧ c ≤ 0xDFFF)) := by
  unfold encodeChar
  split_ifs <;> simp <;> omega

/-- Every code point the replacing UTF-8 decoder emits is a Unicode scalar
value (in particular it can be re-encoded). -/
theorem utf8DecodeReplace_scalar (l : List Nat) :
    ∀ x ∈ utf8DecodeReplace l, x < 0x110000 ∧ ¬(0xD800 ≤ x ∧ x ≤ 0xDFFF) := by
  induction l using utf8DecodeReplace.induct with
  | case1 =>
    intro x hx
    simp [utf8DecodeReplace] at hx
  | case2 c cs h ih =>
    intro x hx
    rw [utf8DecodeReplace.eq_def] at hx
    simp only [h, if_pos] at hx
    rcases List.mem_cons.mp hx with rfl | hx
    · omega
    · exact ih x hx
  | case3 c cs h1 h2 ih =>
    intro x hx
    rw [utf8DecodeReplace.eq_def] at hx
    simp only [h1, h2, if_neg, if_pos, if_false, if_true] at hx
    rcases List.mem_cons.mp hx with rfl | hx
    · omega
    · exact ih x hx
  | case4 c h1 h2 h3 =>
    intro x hx
    rw [utf8DecodeReplace.eq_def] at hx
    simp only [h1, h2, h3] at hx
    simp at hx
    omega
  | case5 c h1 h2 h3 c1 cs hc ih =>
    intro x hx
    rw [utf8DecodeReplace.eq_def] at hx
    simp only [h1, h2, h3, hc, if_neg, if_pos, if_false, if_true] at hx
    rcases List.mem_cons.mp hx with rfl | hx
    · simp [isContByte] at hc
      omega
    · exact ih x hx
  | case6 c h1 h2 h3 c1 cs hc ih =>
    intro x hx
    rw [utf8DecodeReplace.eq_def] at hx
    simp only [h1, h2, h3, hc, if_neg, if_pos, if_false, if_true] at hx
    rcases List.mem_cons.mp hx with rfl | hx
    · omega
    · exact ih x hx
  | case7 c h1 h2 h3 h4 =>
    intro x hx
    rw [utf8DecodeReplace.eq_def] at hx
    simp only [h1, h2, h3, h4] at hx
    simp at hx
    omega
  | case8 c h1 h2 h3 h4 c1 hc =>
    intro x hx
    rw [utf8DecodeReplace.eq_def] at hx
    simp only [h1, h2, h3, h4, hc, if_neg, if_pos, if_false, if_true] at hx
    simp at hx
    omega
  | case9 c h1 h2 h3 h4 c1 hc c2 cs hc2 ih =>
    intro x hx
    rw [utf8DecodeReplace.eq_def] at hx
    simp only [h1, h2, h3, h4, hc, hc2, if_neg, if_pos, if_false, if_true] at hx
    rcases List.mem_cons.mp hx with rfl | hx
    · simp [isContByte] at hc2
      unfold cont3ok at hc
      split_ifs at hc with hA hB <;> simp [isContByte] at hc <;> omega
    · exact ih x hx
  | case10 c h1 h2 h3 h4 c1 hc c2 cs hc2 ih =>
    intro x hx
    rw [utf8DecodeReplace.eq_def] at hx
    simp only [h1, h2, h3, h4, hc, hc2, if_neg, if_pos, if_false, if_true] at hx
    rcases List.mem_cons.mp hx with rfl | hx
    · omega
    · exact ih x hx
  | case11 c h1 h2 h3 h4 c1 cs hc ih =>
    intro x hx
    rw [utf8DecodeReplace.eq_def] at hx
    simp only [h1, h2, h3, h4, hc, if_neg, if_pos, if_false, if_true] at hx
    rcases List.mem_cons.mp hx with rfl | hx
    · omega
    · exact ih x hx
  | case12 c h1 h2 h3 h4 h5 =>
    intro x hx
    rw [utf8DecodeReplace.eq_def] at hx
    simp only [h1, h2, h3, h4, h5] at hx
    simp at hx
    omega
  | case13 c h1 h2 h3 h4 h5 c1 hc =>
    intro x hx
    rw [utf8DecodeReplace.eq_def] at hx
    simp only [h1, h2, h3, h4, h5, hc, if_neg, if_pos, if_false, if_true] at hx
    simp at hx
    omega
  | case14 c h1 h2 h3 h4 h5 c1 hc c2 hc2 =>
    intro x hx
    rw [utf8DecodeReplace.eq_def] at hx
    simp only [h1, h2, h3, h4, h5, hc, hc2, if_neg, if_pos, if_false, if_true] at hx
    simp at hx
    omega
  | case15 c h1 h2 h3 h4 h5 c1 hc c2 hc2 c3 cs hc3 ih =>
    intro x hx
    rw [utf8DecodeReplace.eq_def] at hx
    simp only [h1, h2, h3, h4, h5, hc, hc2, hc3, if_neg, if_pos, if_false, if_true] at hx
    rcases List.mem_cons.mp hx with rfl | hx
    · simp [isContByte] at hc2 hc3
      unfold cont4ok at hc
      split_ifs at hc with hA hB <;> simp [isContByte] at hc <;> omega
    · exact ih x hx
  | case16 c h1 h2 h3 h4 h5 c1 hc c2 hc2 c3 cs hc3 ih =>
    intro x hx
    rw [utf8DecodeReplace.eq_def] at hx
    simp only [h1, h2, h3, h4, h5, hc, hc2, hc3, if_neg, if_pos, if_false, if_true] at hx
    rcases List.mem_cons.mp hx with rfl | hx
    · omega
    · exact ih x hx
  | case17 c h1 h2 h3 h4 h5 c1 hc c2 cs hc2 ih =>
    intro x hx
    rw [utf8DecodeReplace.eq_def] at hx
    simp only [h1, h2, h3, h4, h5, hc, hc2, if_neg, if_pos, if_false, if_true] at hx
    rcases List.mem_cons.mp hx with rfl | hx
    · omega
    · exact ih x hx
  | case18 c h1 h2 h3 h4 h5 c1 cs hc ih =>
    intro x hx
    rw [utf8DecodeReplace.eq_def] at hx
    simp only [h1, h2, h3, h4, h5, hc, if_neg, if_pos, if_false, if_true] at hx
    rcases List.mem_cons.mp hx with rfl | hx
    · omega
    · exact ih x hx
  | case19 c cs h1 h2 h3 h4 h5 ih =>
    intro x hx
    rw [utf8DecodeReplace.eq_def] at hx
    simp only [h1, h2, h3, h4, h5, if_neg, if_pos, if_false, if_true] at hx
    rcases List.mem_cons.mp hx with rfl | hx
    · omega
    · exact ih x hx

/-- The encoding of a single code point is never empty. -/
theorem encodeChar_ne_nil (c : Nat) (e : List Nat) (h : encodeChar c = some e) :
    e ≠ [] := by
  unfold encodeChar at h
  split_ifs at h <;>
    first
      | exact (Option.noConfusion h)
      | (obtain rfl : e = _ := (Option.some.inj h).symm; simp)

/-- Only `U+0000` has an encoding ending in a zero byte. -/
theorem encodeChar_getLast_zero (c : Nat) (e : List Nat) (h : encodeChar c = some e)
    (hz : e.getLast? = some 0) : c = 0 := by
  unfold encodeChar at h
  split_ifs at h <;>
    first
      | exact (Option.noConfusion h)
      | (obtain rfl : e = _ := (Option.some.inj h).symm; simp at hz; try omega)

/-- `pyEncodeUtf8` of a non-empty string is non-empty. -/
theorem pyEncodeUtf8_ne_nil (c : Nat) (cs : List Nat) (bs : List Nat)
    (h : pyEncodeUtf8 (c :: cs) = some bs) : bs ≠ [] := by
  unfold pyEncodeUtf8 at h
  rcases he : encodeChar c with _ | e <;> rw [he] at h
  · simp at h
  rcases hr : pyEncodeUtf8 cs with _ | rest <;> rw [hr] at h
  · simp at h
  obtain rfl : bs = e ++ rest := by injection h with h; exact h.symm
  have := encodeChar_ne_nil c e he
  simp [this]

/-- A UTF-8 encoding ends in a zero byte only when the string ends in the
NUL character. -/
theorem pyEncodeUtf8_getLast_zero (s : List Nat) (bs : List Nat)
    (h : pyEncodeUtf8 s = some bs) (hz : bs.getLast? = some 0) :
    s.getLast? = some 0 := by
  induction s generalizing bs with
  | nil =>
    obtain rfl : bs = [] := by simpa [pyEncodeUtf8] using h.symm
    simp at hz
  | cons c cs ih =>
    unfold pyEncodeUtf8 at h
    rcases he : encodeChar c with _ | e <;> rw [he] at h
    · simp at h
    rcases hr : pyEncodeUtf8 cs with _ | rest <;> rw [hr] at h
    · simp at h
    obtain rfl : bs = e ++ rest := by injection h with h; exact h.symm
    rcases hcs : cs with _ | ⟨c2, cs2⟩
    · subst hcs
      obtain rfl : rest = [] := by simpa [pyEncodeUtf8] using hr.symm
      rw [List.append_nil] at hz
      have := encodeChar_getLast_zero c e he hz
      simp [this]
    · have hne : rest ≠ [] := pyEncodeUtf8_ne_nil c2 cs2 rest (hcs ▸ hr)
      rw [List.getLast?_append_of_ne_nil e hne] at hz
      have hlast := ih rest (hcs ▸ hr) hz
      rw [hcs] at hlast
      rw [List.getLast?_cons_cons]
      exact hlast

/-- A string of encodable code points has a UTF-8 encoding. -/
theorem pyEncodeUtf8_isSome (s : List Nat)
    (h : ∀ c ∈ s, (encodeChar c).isSome) : (pyEncodeUtf8 s).isSome := by
  induction s with
  | nil => simp [pyEncodeUtf8]
  | cons c cs ih =>
    have hc := h c (List.mem_cons_self c cs)
    have hcs := ih (fun x hx => h x (List.mem_cons_of_mem c hx))
    unfold pyEncodeUtf8
    rcases he : encodeChar c with _ | e
    · rw [he] at hc; simp at hc
    rcases hr : pyEncodeUtf8 cs with _ | rest
    · rw [hr] at hcs; simp at hcs
    simp

/-! ## Codec characterization lemmas -/

theorem ljustZeros_of_length_ge (l : List Nat) (n : Nat) (h : n ≤ l.length) :
    ljustZeros l n = l := by
  simp [ljustZeros, Nat.sub_eq_zero_of_le h]

/-- On a header with no extra instance attributes, in-range integer fields
and an encodable callsign, `to_bytes` succeeds with the packed layout. -/
theorem to_bytes_eq (h : FMORawHeader) (enc : List Nat)
    (hex : h.extras = [])
    (henc : pyEncodeUtf8 h.callsign = some enc)
    (h1 : h.version < 2 ^ 32) (h2 : h.padding1 < 2 ^ 16)
    (h3 : h.uid < 2 ^ 16) (h4 : h.padding2 < 2 ^ 16) :
    h.to_bytes = .ok (le32 h.version ++ le16 h.padding1 ++ le16 h.uid ++
      le16 h.padding2 ++ ljustZeros (enc.take 12) 12) := by
  have hsize : callsignSizeOf h = .ok 12 := by
    simp [callsignSizeOf, hex]
  have hlen : (ljustZeros (enc.take 12) 12).length = 12 := by
    rw [ljustZeros_length]
    have := List.length_take 12 enc
    omega
  unfold FMORawHeader.to_bytes
  rw [henc, hsize]
  simp only [h1, h2, h3, h4, and_self, if_true]
  rw [List.take_of_length_le (le_of_eq hlen),
    ljustZeros_of_length_ge _ _ (le_of_eq hlen.symm)]

/-- Whenever `to_bytes` succeeds, it returns exactly 22 bytes. -/
theorem to_bytes_length (h : FMORawHeader) (bs : List Nat)
    (hok : h.to_bytes = .ok bs) : bs.length = 22 := by
  unfold FMORawHeader.to_bytes at hok
  rcases he : pyEncodeUtf8 h.callsign with _ | enc <;> rw [he] at hok
  · exact Except.noConfusion hok
  rcases hs : callsignSizeOf h with e | size <;> rw [hs] at hok
  · exact Except.noConfusion hok
  split_ifs at hok with hr
  · obtain rfl : bs = _ := (Except.ok.inj hok).symm
    have ht : ((ljustZeros (enc.take size) size).take 12).length ≤ 12 := by
      have := List.length_take 12 (ljustZeros (enc.take size) size)
      omega
    simp only [List.length_append, le32, le16, List.length_cons, List.length_nil,
      ljustZeros_length]
    omega

/-- `from_bytes` on at least 22 bytes: the unpacked header. -/
theorem from_bytes_eq (data : List Nat) (hlen : 22 ≤ data.length) :
    FMORawHeader.from_bytes data = .ok
      { version := leValue (data.take 4)
        padding1 := leValue ((data.drop 4).take 2)
        uid := leValue ((data.drop 6).take 2)
        padding2 := leValue ((data.drop 8).take 2)
        callsign := utf8DecodeReplace (rstripZeros ((data.drop 10).take 12))
        extras := [] } := by
  unfold FMORawHeader.from_bytes HEADER_SIZE
  rw [if_neg (by omega)]

theorem leValue_lt_of_take (data : List Nat) (hb : ∀ b ∈ data, b < 256)
    (k n : Nat) (hk : k ≤ n) :
    leValue ((data.drop k).take (n - k)) < 256 ^ (n - k) := by
  have hmem : ∀ b ∈ (data.drop k).take (n - k), b < 256 := by
    intro b hbm
    exact hb b (List.mem_of_mem_drop (List.mem_of_mem_take hbm))
  have := leValue_lt _ hmem
  have hle : ((data.drop k).take (n - k)).length ≤ n - k := by
    have := List.length_take (n - k) (data.drop k)
    omega
  calc leValue ((data.drop k).take (n - k)) < 256 ^ ((data.drop k).take (n - k)).length := this
  _ ≤ 256 ^ (n - k) := Nat.pow_le_pow_right (by omega) hle

/-- Headers decoded from byte data are well-formed. -/
theorem from_bytes_HeaderOk (data : List Nat) (h : FMORawHeader)
    (hb : ∀ b ∈ data, b < 256)
    (hok : FMORawHeader.from_bytes data = .ok h) : HeaderOk h := by
  by_cases hl : data.length < 22
  · unfold FMORawHeader.from_bytes HEADER_SIZE at hok
    rw [if_pos hl] at hok
    exact Except.noConfusion hok
  rw [from_bytes_eq data (by omega)] at hok
  obtain rfl : h = _ := (Except.ok.inj hok).symm
  refine ⟨rfl, ?_, ?_, ?_, ?_, ?_⟩
  · have := leValue_lt_of_take data hb 0 4 (by omega)
    simpa using this
  · exact leValue_lt_of_take data hb 4 6 (by omega)
  · exact leValue_lt_of_take data hb 6 8 (by omega)
  · exact leValue_lt_of_take data hb 8 10 (by omega)
  · refine pyEncodeUtf8_isSome _ ?_
    intro c hc
    have := utf8DecodeReplace_scalar _ c hc
    rw [encodeChar_isSome_iff]
    exact this

/-! ## Field-update lemmas -/

/-- Applying well-typed five-field updates never fails and keeps the header
well-formed. -/
theorem applyUpdates_fiveOk (us : List FieldUpdate) (h : FMORawHeader)
    (hh : HeaderOk h) (hus : ∀ u ∈ us, u.fiveOk) :
    ∃ h2, applyUpdates h us = .ok h2 ∧ HeaderOk h2 := by
  induction us generalizing h with
  | nil => exact ⟨h, rfl, hh⟩
  | cons u us ih =>
    have hu := hus u (List.mem_cons_self u us)
    have hrest : ∀ x ∈ us, x.fiveOk := fun x hx => hus x (List.mem_cons_of_mem u hx)
    obtain ⟨hex, h1, h2, h3, h4, h5⟩ := hh
    cases u with
    | version v =>
      exact ih { h with version := v } ⟨hex, hu, h2, h3, h4, h5⟩ hrest
    | padding1 v =>
      exact ih { h with padding1 := v } ⟨hex, h1, hu, h3, h4, h5⟩ hrest
    | uid v =>
      exact ih { h with uid := v } ⟨hex, h1, h2, hu, h4, h5⟩ hrest
    | padding2 v =>
      exact ih { h with padding2 := v } ⟨hex, h1, h2, h3, hu, h5⟩ hrest
    | callsign s =>
      exact ih { h with callsign := s } ⟨hex, h1, h2, h3, h4, hu⟩ hrest
    | other k v => exact absurd hu (by simp [FieldUpdate.fiveOk])

/-- A successful association-list lookup locates a member. -/
theorem lookup_mem (l : List (String × PyValue)) (k : String) (v : PyValue)
    (h : l.lookup k = some v) : (k, v) ∈ l := by
  induction l with
  | nil => simp [List.lookup] at h
  | cons p t ih =>
    rcases p with ⟨k1, v1⟩
    cases hbeq : (k == k1)
    · simp only [List.lookup, hbeq] at h
      exact List.mem_cons_of_mem _ (ih h)
    · simp only [List.lookup, hbeq] at h
      obtain rfl : v1 = v := by simpa using h
      obtain rfl : k = k1 := eq_of_beq hbeq
      exact List.mem_cons_self _ _

/-- Under the extras invariant, `hasattr` on the header coincides with the
static attribute table. -/
theorem hasattrFMO_eq (h : FMORawHeader) (hinv : ExtrasOk h) (key : String) :
    hasattrFMO h key = hasattrName key := by
  unfold hasattrFMO hasattrName
  rcases hl : h.extras.lookup key with _ | v
  · simp
  · have hk : (key, v) ∈ h.extras := lookup_mem h.extras key v hl
    have hattr := hinv key v hk
    unfold hasattrName at hattr
    simp only [hl, Option.isSome_some, Bool.or_true]
    exact hattr.symm

/-- One `hasattr`-guarded `setattr` step: either it succeeds, preserving the
extras invariant, on a key that is an attribute, or it raises
`AttributeError` on a key that is not. -/
theorem applyUpdate_cases (h : FMORawHeader) (hinv : ExtrasOk h) (u : FieldUpdate) :
    (∃ h2, applyUpdate h u = .ok h2 ∧ ExtrasOk h2 ∧ hasattrName u.key = true) ∨
    (applyUpdate h u = .error .attributeError ∧ hasattrName u.key = false) := by
  cases u with
  | version v =>
    refine .inl ⟨{ h with version := v }, rfl, hinv, ?_⟩
    show hasattrName "version" = true
    decide
  | padding1 v =>
    refine .inl ⟨{ h with padding1 := v }, rfl, hinv, ?_⟩
    show hasattrName "padding1" = true
    decide
  | uid v =>
    refine .inl ⟨{ h with uid := v }, rfl, hinv, ?_⟩
    show hasattrName "uid" = true
    decide
  | padding2 v =>
    refine .inl ⟨{ h with padding2 := v }, rfl, hinv, ?_⟩
    show hasattrName "padding2" = true
    decide
  | callsign s =>
    refine .inl ⟨{ h with callsign := s }, rfl, hinv, ?_⟩
    show hasattrName "callsign" = true
    decide
  | other k v =>
    by_cases hk : hasattrFMO h k = true
    · have hkey : hasattrName k = true := (hasattrFMO_eq h hinv k) ▸ hk
      refine .inl ⟨{ h with extras := setExtra h.extras k v },
        by simp [applyUpdate, hk], ?_, hkey⟩
      intro k2 v2 hk2
      simp only [setExtra, List.mem_cons] at hk2
      rcases hk2 with hk2 | hk2
      · injection hk2 with e1 _
        rw [e1]
        exact hkey
      · exact hinv k2 v2 (List.mem_of_mem_filter hk2)
    · have hkey : hasattrName k = false := by
        cases hb : hasattrName k
        · rfl
        · exact absurd ((hasattrFMO_eq h hinv k).trans hb) hk
      exact .inr ⟨by simp [applyUpdate, hk], hkey⟩

/-- The update loop can only raise `AttributeError`; it does so exactly when
some update key is not an attribute; on success the extras invariant is
preserved. -/
theorem applyUpdates_error_iff (us : List FieldUpdate) (h : FMORawHeader)
    (hinv : ExtrasOk h) :
    (applyUpdates h us = .error .attributeError ↔
      ∃ u ∈ us, hasattrName u.key = false) ∧
    (∀ e, applyUpdates h us = .error e → e = .attributeError) ∧
    (∀ h2, applyUpdates h us = .ok h2 → ExtrasOk h2) := by
  induction us generalizing h with
  | nil =>
    refine ⟨by simp [applyUpdates], ?_, ?_⟩
    · intro e he
      simp [applyUpdates] at he
    · intro h2 h2ok
      obtain rfl : h = h2 := by simpa [applyUpdates] using h2ok
      exact hinv
  | cons u us ih =>
    rcases applyUpdate_cases h hinv u with ⟨h2, hstep, hinv2, hkey⟩ | ⟨hstep, hkey⟩
    · have step : applyUpdates h (u :: us) = applyUpdates h2 us := by
        simp [applyUpdates, hstep]
      obtain ⟨ih1, ih2, ih3⟩ := ih h2 hinv2
      refine ⟨?_, fun e he => ih2 e (step ▸ he), fun hh hok => ih3 hh (step ▸ hok)⟩
      rw [step, ih1]
      constructor
      · rintro ⟨x, hx, hf⟩
        exact ⟨x, List.mem_cons_of_mem _ hx, hf⟩
      · rintro ⟨x, hx, hf⟩
        rcases List.mem_cons.mp hx with rfl | hx
        · rw [hkey] at hf
          exact Bool.noConfusion hf
        · exact ⟨x, hx, hf⟩
    · have step : applyUpdates h (u :: us) = .error .attributeError := by
        simp [applyUpdates, hstep]
      refine ⟨⟨fun _ => ⟨u, List.mem_cons_self _ _, hkey⟩, fun _ => step⟩, ?_, ?_⟩
      · intro e he
        rw [step] at he
        exact (Except.error.inj he).symm
      · intro h2 h2ok
        rw [step] at h2ok
        exact Except.noConfusion h2ok

/-- `to_bytes` never raises `AttributeError`. -/
theorem to_bytes_error_ne_attr (h : FMORawHeader) (e : PyError)
    (he : h.to_bytes = .error e) : e ≠ .attributeError := by
  unfold FMORawHeader.to_bytes at he
  rcases henc : pyEncodeUtf8 h.callsign with _ | enc <;> rw [henc] at he
  · obtain rfl : PyError.unicodeEncodeError = e := Except.error.inj he
    exact fun hc => PyError.noConfusion hc
  rcases hs : callsignSizeOf h with e2 | size <;> rw [hs] at he
  · have he2 : e2 = .typeError := by
      unfold callsignSizeOf at hs
      rcases hl : h.extras.lookup "CALLSIGN_SIZE" with _ | v <;> rw [hl] at hs
      · exact Except.noConfusion hs
      · cases v
        · exact Except.noConfusion hs
        · exact (Except.error.inj hs).symm
    obtain rfl : e2 = e := Except.error.inj he
    rw [he2] at he ⊢
    exact fun hc => PyError.noConfusion hc
  split_ifs at he with hr
  have h2 : Except.error PyError.structError = Except.error e := he
  obtain rfl : PyError.structError = e := Except.error.inj h2
  exact fun hc => PyError.noConfusion hc

/-- Success and failure counters of the replay loop always add up to the
number of processed messages, and each message yields one outcome. -/
theorem replayAux_counts (cfgUid : Nat) (pfx : List Nat) (rcOk : Nat → Bool)
    (msgs : List (List Nat)) : ∀ i : Nat,
    ((replayAux cfgUid pfx rcOk i msgs).succeeded +
      (replayAux cfgUid pfx rcOk i msgs).failed = msgs.length) ∧
    ((replayAux cfgUid pfx rcOk i msgs).outcomes.length = msgs.length) := by
  induction msgs with
  | nil => intro i; simp [replayAux]
  | cons m rest ih =>
    intro i
    obtain ⟨ih1, ih2⟩ := ih (i + 1)
    by_cases hs : (replayOne cfgUid pfx (rcOk i) m).1 = true <;>
      simp [replayAux, hs, ih2] <;> omega

/-! ## Claim theorems -/

/-- C5: a packet whose decoded header uid equals the relay's configured
uid is dropped by the message handler before any buffering: the buffer and
the last-accepted timestamp are exactly as before the delivery. -/
theorem on_message_drops_relay_uid (cfgUid : Nat) (now : Int) (payload : List Nat)
    (s : EchoState) (hd : FMORawHeader)
    (hdec : FMORawHeader.from_bytes payload = .ok hd) (huid : hd.uid = cfgUid) :
    onMessage cfgUid now payload s = s := by
  unfold onMessage
  rw [hdec]
  simp [huid]

theorem on_message_drops_relay_uid_witness :
    onMessage 441 7 samplePacket ⟨[], none⟩ = ⟨[], none⟩ :=
  on_message_drops_relay_uid 441 7 samplePacket ⟨[], none⟩
    ⟨1, 0, 441, 0, [66, 68, 56, 66, 79, 74], []⟩ (by decide) rfl

/-- C10: a packet shorter than 22 bytes makes `from_bytes` raise inside the
message handler; the exception is caught there, so the handler returns
normally with the state untouched. -/
theorem on_message_short_input_noop (cfgUid : Nat) (now : Int) (payload : List Nat)
    (s : EchoState) (hlen : payload.length < 22) :
    onMessage cfgUid now payload s = s := by
  have hdec : FMORawHeader.from_bytes payload = .error .valueError := by
    unfold FMORawHeader.from_bytes HEADER_SIZE
    rw [if_pos hlen]
  unfold onMessage
  rw [hdec]

theorem on_message_short_input_noop_witness :
    onMessage 0 0 [1, 2, 3] ⟨[[4]], some 3⟩ = ⟨[[4]], some 3⟩ :=
  on_message_short_input_noop 0 0 [1, 2, 3] ⟨[[4]], some 3⟩ (by decide)

/-- C6: when the timestamp is set and strictly more than the quiet period
has elapsed, `checkTimeout` resets buffer and timestamp to Idle — also when
the buffer was already empty; once Idle (timestamp absent) every further
call is a no-op, and with elapsed time not exceeding the quiet period no
state changes. -/
theorem check_timeout_clears_once (cfg : EchoConfig) (rcOk : Nat → Bool) :
    (∀ (now t : Int) (buf : List (List Nat)), now - t > cfg.timeout →
      (checkTimeout cfg rcOk now ⟨buf, some t⟩).1 = ⟨[], none⟩) ∧
    (∀ (now : Int) (s : EchoState), s.lastMessageTime = none →
      checkTimeout cfg rcOk now s = (s, none)) ∧
    (∀ (now t : Int) (buf : List (List Nat)), ¬ now - t > cfg.timeout →
      checkTimeout cfg rcOk now ⟨buf, some t⟩ = (⟨buf, some t⟩, none)) := by
  refine ⟨?_, ?_, ?_⟩
  · intro now t buf hgt
    unfold checkTimeout
    simp [hgt]
  · intro now s hnone
    unfold checkTimeout
    rw [hnone]
  · intro now t buf hle
    unfold checkTimeout
    simp [hle]

theorem check_timeout_clears_once_witness :
    (checkTimeout ⟨0, [], 1⟩ (fun _ => true) 5 ⟨[], some 0⟩).1 = ⟨[], none⟩ :=
  (check_timeout_clears_once ⟨0, [], 1⟩ (fun _ => true)).1 5 0 [] (by decide)

/-- C7: every buffered packet is attempted in order (one outcome each),
the counters satisfy succeeded + failed = total; in the 3-packet scenario
with the 2nd publish failing the report is succeeded=2, failed=1 out of 3;
and after a timeout the buffer and timestamp are cleared regardless of the
publish outcomes. -/
theorem replay_partial_failure :
    (∀ (cfgUid : Nat) (pfx : List Nat) (rcOk : Nat → Bool) (msgs : List (List Nat)),
      (replayMessages cfgUid pfx rcOk msgs).succeeded +
        (replayMessages cfgUid pfx rcOk msgs).failed = msgs.length ∧
      (replayMessages cfgUid pfx rcOk msgs).outcomes.length = msgs.length) ∧
    ((replayMessages 65535 [82, 69, 62] (fun i => decide (i ≠ 2))
        [samplePacket, samplePacket, samplePacket]).succeeded = 2 ∧
      (replayMessages 65535 [82, 69, 62] (fun i => decide (i ≠ 2))
        [samplePacket, samplePacket, samplePacket]).failed = 1 ∧
      (replayMessages 65535 [82, 69, 62] (fun i => decide (i ≠ 2))
        [samplePacket, samplePacket, samplePacket]).outcomes = [true, false, true]) ∧
    (∀ (cfg : EchoConfig) (rcOk : Nat → Bool) (now t : Int) (buf : List (List Nat)),
      now - t > cfg.timeout →
      (checkTimeout cfg rcOk now ⟨buf, some t⟩).1 = ⟨[], none⟩) := by
  refine ⟨?_, ?_, ?_⟩
  · intro cfgUid pfx rcOk msgs
    exact replayAux_counts cfgUid pfx rcOk msgs 1
  · refine ⟨?_, ?_, ?_⟩ <;> decide
  · intro cfg rcOk now t buf hgt
    unfold checkTimeout
    simp [hgt]

theorem replay_partial_failure_witness :
    (checkTimeout ⟨1, [], 2⟩ (fun _ => false) 9 ⟨[], some 1⟩).1 = ⟨[], none⟩ :=
  replay_partial_failure.2.2 ⟨1, [], 2⟩ (fun _ => false) 9 1 [] (by decide)

/-- C8: `from_bytes` fails (with `ValueError`) exactly on inputs shorter
than 22 bytes; on at least 22 bytes it always succeeds, with the callsign
obtained by stripping trailing zero bytes from the 12-byte field and
UTF-8-decoding with the replacement character. -/
theorem from_bytes_spec :
    (∀ data : List Nat,
      FMORawHeader.from_bytes data = .error .valueError ↔ data.length < 22) ∧
    (∀ data : List Nat, 22 ≤ data.length →
      FMORawHeader.from_bytes data = .ok
        { version := leValue (data.take 4)
          padding1 := leValue ((data.drop 4).take 2)
          uid := leValue ((data.drop 6).take 2)
          padding2 := leValue ((data.drop 8).take 2)
          callsign := utf8DecodeReplace (rstripZeros ((data.drop 10).take 12))
          extras := [] }) := by
  constructor
  · intro data
    constructor
    · intro herr
      by_contra hge
      rw [from_bytes_eq data (by omega)] at herr
      exact Except.noConfusion herr
    · intro hlt
      unfold FMORawHeader.from_bytes HEADER_SIZE
      rw [if_pos hlt]
  · intro data hlen
    exact from_bytes_eq data hlen

theorem from_bytes_spec_witness :
    FMORawHeader.from_bytes samplePacket =
      .ok ⟨1, 0, 441, 0, [66, 68, 56, 66, 79, 74], []⟩ := by
  rw [from_bytes_spec.2 samplePacket (by decide)]
  decide

/-- C9: replaying the buffered packet
`header{version=1, uid=441, callsign="BD8BOJ"} ++ 0xDEADBEEF` with relay
uid 65535 and prefix "RE>" clears the state and publishes one packet whose
header decodes to uid 65535 and callsign "RE>BD8BOJ" with the payload bytes
unchanged. -/
theorem replay_concrete_scenario :
    (checkTimeout ⟨65535, [82, 69, 62], 2⟩ (fun _ => true) 10
        ⟨[samplePacket], some 0⟩).1 = ⟨[], none⟩ ∧
    ((checkTimeout ⟨65535, [82, 69, 62], 2⟩ (fun _ => true) 10
        ⟨[samplePacket], some 0⟩).2.map (fun r =>
          r.published.map (fun m =>
            ((FMORawHeader.from_bytes m).toOption.map (fun hd => (hd.uid, hd.callsign)),
              m.drop 22)))) =
      some [(some (65535, [82, 69, 62, 66, 68, 56, 66, 79, 74]),
             [0xDE, 0xAD, 0xBE, 0xEF])] := by
  constructor <;> decide

/-- C1 counterexample: the callsign of 12 code points "AAAAAAAAAAA¢"
encodes to 13 UTF-8 bytes; `to_bytes` slices off the byte `0xA2`, splitting
the two-byte code point `U+00A2 = C2 A2`; decoding the result yields
`AAAAAAAAAAA�`, which re-encodes to 14 bytes (more than 12) and is not
a byte-wise prefix of the original encoding. -/
theorem encode_split_codepoint_counterexample :
    pyEncodeUtf8 [65, 65, 65, 65, 65, 65, 65, 65, 65, 65, 65, 0xA2]
      = some [65, 65, 65, 65, 65, 65, 65, 65, 65, 65, 65, 0xC2, 0xA2] ∧
    FMORawHeader.to_bytes ⟨1, 0, 1, 0, [65, 65, 65, 65, 65, 65, 65, 65, 65, 65, 65, 0xA2], []⟩
      = .ok [1, 0, 0, 0, 0, 0, 1, 0, 0, 0,
             65, 65, 65, 65, 65, 65, 65, 65, 65, 65, 65, 0xC2] ∧
    FMORawHeader.from_bytes
        [1, 0, 0, 0, 0, 0, 1, 0, 0, 0,
         65, 65, 65, 65, 65, 65, 65, 65, 65, 65, 65, 0xC2]
      = .ok ⟨1, 0, 1, 0, [65, 65, 65, 65, 65, 65, 65, 65, 65, 65, 65, 0xFFFD], []⟩ ∧
    pyEncodeUtf8 [65, 65, 65, 65, 65, 65, 65, 65, 65, 65, 65, 0xFFFD]
      = some [65, 65, 65, 65, 65, 65, 65, 65, 65, 65, 65, 0xEF, 0xBF, 0xBD] ∧
    ([65, 65, 65, 65, 65, 65, 65, 65, 65, 65, 65, 0xEF, 0xBF, 0xBD] : List Nat).length = 14 ∧
    ([65, 65, 65, 65, 65, 65, 65, 65, 65, 65, 65, 0xC2, 0xA2] : List Nat).take 14
      ≠ [65, 65, 65, 65, 65, 65, 65, 65, 65, 65, 65, 0xEF, 0xBF, 0xBD] := by
  refine ⟨?_, ?_, ?_, ?_, ?_, ?_⟩ <;> decide

/-- C1 amended: `to_bytes` always yields exactly 22 bytes; the callsign
field stores the UTF-8 encoding truncated by a plain byte slice to at most
12 bytes (possibly splitting a multi-byte code point) and zero-padded, so
stripping the trailing zero bytes of the stored field yields a byte-wise
prefix of the original encoding of length at most 12. -/
theorem encode_byte_truncation (h : FMORawHeader) (enc : List Nat)
    (hex : h.extras = [])
    (henc : pyEncodeUtf8 h.callsign = some enc)
    (h1 : h.version < 2 ^ 32) (h2 : h.padding1 < 2 ^ 16)
    (h3 : h.uid < 2 ^ 16) (h4 : h.padding2 < 2 ^ 16) :
    ∃ bs, h.to_bytes = .ok bs ∧ bs.length = 22 ∧
      (∃ t, rstripZeros ((bs.drop 10).take 12) ++ t = enc) ∧
      (rstripZeros ((bs.drop 10).take 12)).length ≤ 12 := by
  have htb := to_bytes_eq h enc hex henc h1 h2 h3 h4
  have hlenF : (ljustZeros (enc.take 12) 12).length = 12 := by
    rw [ljustZeros_length]
    have := List.length_take 12 enc
    omega
  have key : rstripZeros (((le32 h.version ++ le16 h.padding1 ++ le16 h.uid ++
      le16 h.padding2 ++ ljustZeros (enc.take 12) 12).drop 10).take 12)
      = rstripZeros (enc.take 12) := by
    rw [show (le32 h.version ++ le16 h.padding1 ++ le16 h.uid ++ le16 h.padding2 ++
        ljustZeros (enc.take 12) 12).drop 10 = ljustZeros (enc.take 12) 12 from rfl]
    rw [List.take_of_length_le (le_of_eq hlenF)]
    show rstripZeros (enc.take 12 ++ List.replicate (12 - (enc.take 12).length) 0) = _
    exact rstripZeros_append_replicate _ _
  refine ⟨_, htb, to_bytes_length h _ htb, ?_, ?_⟩
  · rw [key]
    obtain ⟨t1, ht1⟩ := rstripZeros_append_eq (enc.take 12)
    exact ⟨t1 ++ enc.drop 12, by rw [← List.append_assoc, ht1, List.take_append_drop]⟩
  · rw [key]
    calc (rstripZeros (enc.take 12)).length ≤ (enc.take 12).length :=
        rstripZeros_length_le _
    _ ≤ 12 := by
        have := List.length_take 12 enc
        omega

theorem encode_byte_truncation_witness :
    ∃ bs, FMORawHeader.to_bytes ⟨1, 0, 1, 0,
        [65, 65, 65, 65, 65, 65, 65, 65, 65, 65, 65, 0xA2], []⟩ = .ok bs ∧
      bs.length = 22 ∧
      (∃ t, rstripZeros ((bs.drop 10).take 12) ++ t
        = [65, 65, 65, 65, 65, 65, 65, 65, 65, 65, 65, 0xC2, 0xA2]) ∧
      (rstripZeros ((bs.drop 10).take 12)).length ≤ 12 :=
  encode_byte_truncation ⟨1, 0, 1, 0, [65, 65, 65, 65, 65, 65, 65, 65, 65, 65, 65, 0xA2], []⟩
    [65, 65, 65, 65, 65, 65, 65, 65, 65, 65, 65, 0xC2, 0xA2]
    rfl (by decide) (by decide) (by decide) (by decide) (by decide)

/-- C2 counterexample: the callsign `"\x00"` encodes to the single byte
`0x00`, within 12 bytes, yet decoding the re-serialized header strips the
zero byte along with the padding: the round trip returns the empty
callsign, not `"\x00"`. -/
theorem roundtrip_nul_counterexample :
    pyEncodeUtf8 [0] = some [0] ∧
    FMORawHeader.to_bytes ⟨1, 0, 1, 0, [0], []⟩
      = .ok [1, 0, 0, 0, 0, 0, 1, 0, 0, 0, 0, 0, 0, 0, 0, 0, 0, 0, 0, 0, 0, 0] ∧
    FMORawHeader.from_bytes
        [1, 0, 0, 0, 0, 0, 1, 0, 0, 0, 0, 0, 0, 0, 0, 0, 0, 0, 0, 0, 0, 0]
      = .ok ⟨1, 0, 1, 0, [], []⟩ ∧
    ([] : List Nat) ≠ [0] := by
  refine ⟨?_, ?_, ?_, ?_⟩ <;> decide

/-- C2 amended: for a header whose callsign encodes to at most 12 UTF-8
bytes and does not end in the NUL character, serializing and parsing back
returns the header unchanged (all five fields). -/
theorem roundtrip_no_trailing_nul (h : FMORawHeader) (enc : List Nat)
    (hex : h.extras = [])
    (henc : pyEncodeUtf8 h.callsign = some enc) (hlen : enc.length ≤ 12)
    (hnul : h.callsign.getLast? ≠ some 0)
    (h1 : h.version < 2 ^ 32) (h2 : h.padding1 < 2 ^ 16)
    (h3 : h.uid < 2 ^ 16) (h4 : h.padding2 < 2 ^ 16) :
    ∃ bs, h.to_bytes = .ok bs ∧ FMORawHeader.from_bytes bs = .ok h := by
  obtain ⟨v, p1, u, p2, cs, ex⟩ := h
  obtain rfl : ex = [] := hex
  simp only at henc hnul h1 h2 h3 h4
  have htb := to_bytes_eq ⟨v, p1, u, p2, cs, []⟩ enc rfl henc h1 h2 h3 h4
  refine ⟨_, htb, ?_⟩
  have hbslen := to_bytes_length _ _ htb
  rw [from_bytes_eq _ (le_of_eq hbslen.symm)]
  have htk : enc.take 12 = enc := List.take_of_length_le hlen
  have hencz : enc.getLast? ≠ some 0 := by
    intro hz
    exact hnul (pyEncodeUtf8_getLast_zero cs enc henc hz)
  have e1 : leValue ((le32 v ++ le16 p1 ++ le16 u ++ le16 p2 ++
      ljustZeros (enc.take 12) 12).take 4) = v := by
    rw [show (le32 v ++ le16 p1 ++ le16 u ++ le16 p2 ++
      ljustZeros (enc.take 12) 12).take 4 = le32 v from rfl, leValue_le32]
  have e2 : leValue (((le32 v ++ le16 p1 ++ le16 u ++ le16 p2 ++
      ljustZeros (enc.take 12) 12).drop 4).take 2) = p1 := by
    rw [show ((le32 v ++ le16 p1 ++ le16 u ++ le16 p2 ++
      ljustZeros (enc.take 12) 12).drop 4).take 2 = le16 p1 from rfl, leValue_le16]
  have e3 : leValue (((le32 v ++ le16 p1 ++ le16 u ++ le16 p2 ++
      ljustZeros (enc.take 12) 12).drop 6).take 2) = u := by
    rw [show ((le32 v ++ le16 p1 ++ le16 u ++ le16 p2 ++
      ljustZeros (enc.take 12) 12).drop 6).take 2 = le16 u from rfl, leValue_le16]
  have e4 : leValue (((le32 v ++ le16 p1 ++ le16 u ++ le16 p2 ++
      ljustZeros (enc.take 12) 12).drop 8).take 2) = p2 := by
    rw [show ((le32 v ++ le16 p1 ++ le16 u ++ le16 p2 ++
      ljustZeros (enc.take 12) 12).drop 8).take 2 = le16 p2 from rfl, leValue_le16]
  have hlenF : (ljustZeros (enc.take 12) 12).length = 12 := by
    rw [ljustZeros_length]
    have := List.length_take 12 enc
    omega
  have e5 : utf8DecodeReplace (rstripZeros (((le32 v ++ le16 p1 ++ le16 u ++ le16 p2 ++
      ljustZeros (enc.take 12) 12).drop 10).take 12)) = cs := by
    rw [show (le32 v ++ le16 p1 ++ le16 u ++ le16 p2 ++
        ljustZeros (enc.take 12) 12).drop 10 = ljustZeros (enc.take 12) 12 from rfl]
    rw [List.take_of_length_le (le_of_eq hlenF)]
    rw [show ljustZeros (enc.take 12) 12
      = enc.take 12 ++ List.replicate (12 - (enc.take 12).length) 0 from rfl]
    rw [rstripZeros_append_replicate, htk, rstripZeros_eq_self enc hencz]
    exact utf8DecodeReplace_pyEncode_eq cs enc henc
  rw [e1, e2, e3, e4, e5]

theorem roundtrip_no_trailing_nul_witness :
    ∃ bs, FMORawHeader.to_bytes ⟨1, 0, 441, 0, [66, 68, 56, 66, 79, 74], []⟩ = .ok bs ∧
      FMORawHeader.from_bytes bs = .ok ⟨1, 0, 441, 0, [66, 68, 56, 66, 79, 74], []⟩ :=
  roundtrip_no_trailing_nul ⟨1, 0, 441, 0, [66, 68, 56, 66, 79, 74], []⟩
    [66, 68, 56, 66, 79, 74] rfl (by decide) (by decide) (by decide)
    (by decide) (by decide) (by decide) (by decide)

/-- Unfolding `replace_header_in_stream` past a successful parse and a
successful update loop. -/
theorem replace_header_after_updates (stream : List Nat) (updates : List FieldUpdate)
    (h0 h2 : FMORawHeader)
    (ha : FMORawHeader.from_bytes stream = .ok h0)
    (hb : applyUpdates h0 updates = .ok h2) :
    replace_header_in_stream stream updates =
      match h2.to_bytes with
      | Except.error e => Except.error e
      | Except.ok newHeader => Except.ok (newHeader ++ stream.drop HEADER_SIZE) := by
  unfold replace_header_in_stream
  rw [ha]
  show (match applyUpdates h0 updates with
    | Except.error e => Except.error e
    | Except.ok header2 =>
      match header2.to_bytes with
      | Except.error e => Except.error e
      | Except.ok newHeader =>
        Except.ok (newHeader ++ stream.drop HEADER_SIZE)) = _
  rw [hb]

/-- Unfolding `replace_header_in_stream` past a successful parse into a
failing update loop. -/
theorem replace_header_after_updates_error (stream : List Nat)
    (updates : List FieldUpdate) (h0 : FMORawHeader) (e : PyError)
    (ha : FMORawHeader.from_bytes stream = .ok h0)
    (hb : applyUpdates h0 updates = .error e) :
    replace_header_in_stream stream updates = .error e := by
  unfold replace_header_in_stream
  rw [ha]
  show (match applyUpdates h0 updates with
    | Except.error e => Except.error e
    | Except.ok header2 =>
      match header2.to_bytes with
      | Except.error e => Except.error e
      | Except.ok newHeader =>
        Except.ok (newHeader ++ stream.drop HEADER_SIZE)) = _
  rw [hb]

/-- C3: on a packet of at least 22 bytes, rewriting any well-typed set of
updates over the five header fields succeeds, leaves the payload from
offset 22 byte-identical, and preserves the total length. -/
theorem replace_header_preserves_payload (stream : List Nat)
    (updates : List FieldUpdate)
    (hlen : 22 ≤ stream.length) (hbytes : ∀ b ∈ stream, b < 256)
    (hupd : ∀ u ∈ updates, u.fiveOk) :
    ∃ res, replace_header_in_stream stream updates = .ok res ∧
      res.drop 22 = stream.drop 22 ∧ res.length = stream.length := by
  have h0eq := from_bytes_eq stream hlen
  have h0ok := from_bytes_HeaderOk stream _ hbytes h0eq
  obtain ⟨h2, hupds, hok2⟩ := applyUpdates_fiveOk updates _ h0ok hupd
  obtain ⟨hex2, r1, r2, r3, r4, r5⟩ := hok2
  obtain ⟨enc2, henc2⟩ := Option.isSome_iff_exists.mp r5
  have htb := to_bytes_eq h2 enc2 hex2 henc2 r1 r2 r3 r4
  have hlen22 := to_bytes_length h2 _ htb
  have hres : replace_header_in_stream stream updates
      = .ok ((le32 h2.version ++ le16 h2.padding1 ++ le16 h2.uid ++ le16 h2.padding2 ++
          ljustZeros (enc2.take 12) 12) ++ stream.drop 22) := by
    rw [replace_header_after_updates stream updates _ h2 h0eq hupds, htb]
    rfl
  refine ⟨_, hres, ?_, ?_⟩
  · rw [← hlen22, List.drop_left]
  · rw [List.length_append, hlen22, List.length_drop]
    omega

theorem replace_header_preserves_payload_witness :
    ∃ res, replace_header_in_stream samplePacket [.uid 65535] = .ok res ∧
      res.drop 22 = samplePacket.drop 22 ∧ res.length = samplePacket.length :=
  replace_header_preserves_payload samplePacket [.uid 65535] (by decide) (by decide)
    (by
      intro u hu
      rcases List.mem_singleton.mp hu with rfl
      show (65535 : Nat) < 2 ^ 16
      decide)

/-- C4 counterexample: the update key `"HEADER_SIZE"` is not one of the
five header fields, yet `replace_header_in_stream` raises nothing for it:
Python's `hasattr` also accepts class attributes, so the rewrite succeeds
(and, `HEADER_SIZE` being unused by serialization, returns the packet
unchanged). -/
theorem replace_header_unknown_key_counterexample :
    fieldNames.contains "HEADER_SIZE" = false ∧
    replace_header_in_stream (List.replicate 22 0) [.other "HEADER_SIZE" (.int 5)]
      = .ok (List.replicate 22 0) := by
  constructor <;> decide

/-- C4 amended: on a packet of at least 22 bytes, the rewrite raises
`AttributeError` exactly when some update key fails Python's `hasattr` on
the header — i.e. is neither one of the five fields nor a class-body
attribute such as `HEADER_SIZE`; in particular updates drawn only from the
five fields never raise it. -/
theorem replace_header_attribute_error_iff (stream : List Nat)
    (updates : List FieldUpdate) (hlen : 22 ≤ stream.length) :
    (replace_header_in_stream stream updates = .error .attributeError ↔
      ∃ u ∈ updates, hasattrName u.key = false) ∧
    ((∀ u ∈ updates, fieldNames.contains u.key = true) →
      replace_header_in_stream stream updates ≠ .error .attributeError) := by
  have h0eq := from_bytes_eq stream hlen
  have hinv0 : ExtrasOk
      { version := leValue (stream.take 4)
        padding1 := leValue ((stream.drop 4).take 2)
        uid := leValue ((stream.drop 6).take 2)
        padding2 := leValue ((stream.drop 8).take 2)
        callsign := utf8DecodeReplace (rstripZeros ((stream.drop 10).take 12))
        extras := [] } := by
    intro k v hkv
    simp at hkv
  obtain ⟨iff1, only1, _⟩ := applyUpdates_error_iff updates _ hinv0
  have hiff : replace_header_in_stream stream updates = .error .attributeError ↔
      ∃ u ∈ updates, hasattrName u.key = false := by
    rcases happ : applyUpdates
        { version := leValue (stream.take 4)
          padding1 := leValue ((stream.drop 4).take 2)
          uid := leValue ((stream.drop 6).take 2)
          padding2 := leValue ((stream.drop 8).take 2)
          callsign := utf8DecodeReplace (rstripZeros ((stream.drop 10).take 12))
          extras := [] } updates with e | h2
    · obtain rfl : e = .attributeError := only1 e happ
      have hrepl := replace_header_after_updates_error stream updates _ _ h0eq happ
      rw [hrepl]
      exact ⟨fun _ => iff1.mp happ, fun _ => rfl⟩
    · have hrepl := replace_header_after_updates stream updates _ h2 h0eq happ
      rcases htb : h2.to_bytes with e | nh <;> rw [htb] at hrepl
      · have hrepl2 : replace_header_in_stream stream updates = .error e := hrepl
        rw [hrepl2]
        constructor
        · intro hc
          exact absurd ((Except.error.inj hc)) (to_bytes_error_ne_attr h2 e htb)
        · intro hex
          have := iff1.mpr hex
          rw [happ] at this
          exact Except.noConfusion this
      · have hrepl2 : replace_header_in_stream stream updates
            = .ok (nh ++ stream.drop HEADER_SIZE) := hrepl
        rw [hrepl2]
        constructor
        · intro hc
          exact Except.noConfusion hc
        · intro hex
          have := iff1.mpr hex
          rw [happ] at this
          exact Except.noConfusion this
  refine ⟨hiff, ?_⟩
  intro hall hc
  obtain ⟨u, hu, hf⟩ := hiff.mp hc
  have hcontains := hall u hu
  have : hasattrName u.key = true := by
    unfold hasattrName
    rw [hcontains]
    rfl
  rw [this] at hf
  exact Bool.noConfusion hf

theorem replace_header_attribute_error_iff_witness :
    replace_header_in_stream (List.replicate 22 0) [.other "bogus" (.int 1)]
      = .error .attributeError :=
  (replace_header_attribute_error_iff (List.replicate 22 0)
      [.other "bogus" (.int 1)] (by decide)).1.mpr
    ⟨.other "bogus" (.int 1), List.mem_singleton.mpr rfl, by decide⟩

end FMO
